import Mathlib

/-!
Verification development for the Markdown-template-to-DOCX processor
(`MarkdownTemplateProcessor` in `Python/Tools/md-to-docx.py`).

Strings are modelled as `List Char`.  Python's `str.replace`, the regex
substitution `re.sub(r'\x7b\x7b(\w+)\x7d\x7d', '[To be filled]', s)`, and the regex
split `re.split(r'(\*\*.*?\*\*)', s)` are modelled by structurally recursive
functions driven by a fuel argument equal to the length of the scanned string;
every scanning step consumes at least one character, so the fuel never runs
out on the calls made by the top-level definitions (the fuel-zero fallback is
unreachable from them).  The nondeterministic timestamp
`datetime.now().strftime("%Y-%m-%d %H:%M")` is modelled as an explicit
parameter `gd`.  Python dictionaries are modelled as association lists in
insertion order, which is the order `dict.items()` iterates in and the order
in which a newly added key appears.  The mutation `data['generation_date'] = ...`
performed by `fill_template` on its caller's dictionary is modelled by
returning the updated mapping as the second component of the result.
-/

/-- Convert a string literal to the `List Char` representation used throughout. -/
def toL (s : String) : List Char := s.toList

/-- The character `\x7b` (left curly brace). -/
def lb : Char := '\x7b'

/-- The character `\x7d` (right curly brace). -/
def rb : Char := '\x7d'

def hashChar : Char := '#'

def pipeChar : Char := '|'

def nlChar : Char := '\n'

/-- Python `str.strip()` whitespace, restricted to the ASCII range. -/
def isSpace (c : Char) : Bool :=
  c == ' ' || c == '\t' || c == '\n' || c == '\r' || c == '\x0b' || c == '\x0c'

/-- A regex `\w` word character: `[A-Za-z0-9_]` (the claims fix this ASCII class). -/
def isWordChar (c : Char) : Bool := c.isAlphanum || c == '_'

/-- Python `str.strip()`: remove leading and trailing whitespace. -/
def strip (l : List Char) : List Char :=
  ((l.dropWhile isSpace).reverse.dropWhile isSpace).reverse

/-- The first whitespace-delimited token, `line.split()[0]`, for a line with no
leading whitespace. -/
def firstToken (l : List Char) : List Char := l.takeWhile (fun c => !(isSpace c))

/-- Python `ch in line` for a single character. -/
def containsChar (c : Char) (l : List Char) : Bool := l.any (fun x => x == c)

/-- Python `pat in line` (substring containment). -/
def containsSub (pat : List Char) : List Char → Bool
  | [] => pat.isPrefixOf []
  | c :: rest => pat.isPrefixOf (c :: rest) || containsSub pat rest

/-- Python `str.split(sep)` for a one-character separator: `n` separators give
`n + 1` segments, so the empty string splits to `[[]]`. -/
def splitOnChar (sep : Char) : List Char → List (List Char)
  | [] => [[]]
  | c :: r =>
    match splitOnChar sep r with
    | [] => [[]]
    | s :: ss => if c = sep then [] :: s :: ss else (c :: s) :: ss

/-- Python `'\n'.join(pieces)`. -/
def joinNL (pieces : List (List Char)) : List Char := List.intercalate [nlChar] pieces

/-- `"  " * level`: the indent used by `_dict_to_markdown`. -/
def indentOf (level : Nat) : List Char := List.replicate (2 * level) ' '

/-- Matching of the anchored regex `\x7b\x7b\w+\x7d\x7d` at the head of the list.
`\w+` is greedy and, because a shorter run of word characters is never followed
by `\x7d`, the regex matches at the head exactly when the maximal word-character
run after the two opening braces is nonempty and immediately followed by two
closing braces.  Returns the rest of the input after the match. -/
def matchPH (l : List Char) : Option (List Char) :=
  match l with
  | c1 :: c2 :: rest =>
    if c1 = lb ∧ c2 = lb then
      match rest.dropWhile isWordChar with
      | d1 :: d2 :: r2 =>
        if d1 = rb ∧ d2 = rb ∧ rest.takeWhile isWordChar ≠ [] then some r2 else none
      | _ => none
    else none
  | _ => none

/-- The replacement text of the final `re.sub` pass in `fill_template`. -/
def sentinel : List Char := toL ("[To be filled]")

/-- Fuel-driven model of `re.sub(r'\x7b\x7b(\w+)\x7d\x7d', '[To be filled]', s)`:
scan left to right, replace every match, continue after each match.  Each step
consumes at least one character, so fuel `s.length` is always sufficient. -/
def subAllF : Nat → List Char → List Char
  | 0, _ => []
  | _ + 1, [] => []
  | n + 1, c :: rest =>
    match matchPH (c :: rest) with
    | some r => sentinel ++ subAllF n r
    | none => c :: subAllF n rest

/-- The final sentinel-replacement pass of `fill_template`. -/
def subAll (l : List Char) : List Char := subAllF l.length l

/-- `true` iff some suffix of the list matches `\x7b\x7b\w+\x7d\x7d` at its head,
i.e. the string contains a substring matching the placeholder regex. -/
def hasPH : List Char → Bool
  | [] => false
  | c :: rest => (matchPH (c :: rest)).isSome || hasPH rest

/-- Fuel-driven model of Python `str.replace(pat, rep)` (all non-overlapping
occurrences, scanned left to right).  For the nonempty patterns used by
`fill_template`, fuel `s.length` is always sufficient. -/
def replaceAllF (pat rep : List Char) : Nat → List Char → List Char
  | 0, l => l
  | _ + 1, [] => []
  | n + 1, c :: rest =>
    if pat.isPrefixOf (c :: rest) then
      rep ++ replaceAllF pat rep n ((c :: rest).drop pat.length)
    else
      c :: replaceAllF pat rep n rest

/-- Python `str.replace(pat, rep)` for nonempty `pat`. -/
def replaceAll (pat rep l : List Char) : List Char := replaceAllF pat rep l.length l

mutual
/-- A value of the data mapping passed to `fill_template`: a scalar (modelled by
its `str()` image), a list of scalars (each modelled by its `str()` image), a
nested string-keyed mapping, or `None`. -/
inductive Value where
  | vStr : List Char → Value
  | vList : List (List Char) → Value
  | vDict : Entries → Value
  | vNone : Value

/-- The entries of a nested mapping, in insertion order. -/
inductive Entries where
  | nil : Entries
  | cons : List Char → Value → Entries → Entries
end

mutual
/-- The `result` list built by `_dict_to_markdown(d, level)`: one element per
appended line or recursively rendered block, joined with newlines at the end. -/
def dictPieces (level : Nat) : Entries → List (List Char)
  | .nil => []
  | .cons k v rest => entryPieces level k v ++ dictPieces level rest

/-- The pieces contributed by a single `(key, value)` entry of
`_dict_to_markdown`. -/
def entryPieces (level : Nat) (k : List Char) : Value → List (List Char)
  | .vDict d =>
    (indentOf level ++ toL ("- **") ++ k ++ toL (":**")) ::
      [joinNL (dictPieces (level + 1) d)]
  | .vList items =>
    (indentOf level ++ toL ("- **") ++ k ++ toL (":**")) ::
      items.map (fun it => indentOf level ++ toL ("  - ") ++ it)
  | .vStr s => [indentOf level ++ toL ("- **") ++ k ++ toL (":** ") ++ s]
  | .vNone => [indentOf level ++ toL ("- **") ++ k ++ toL (":** ") ++ toL ("None")]
end

/-- `_dict_to_markdown(d, 0)`. -/
def dictToMarkdown (d : Entries) : List Char := joinNL (dictPieces 0 d)

/-- The display string computed for a value by `fill_template` before
substitution: list → bullet block, dict → `_dict_to_markdown`, `None` →
`"Not specified"`, otherwise `str(value)`. -/
def displayValue : Value → List Char
  | .vList xs => joinNL (xs.map (fun x => toL ("- ") ++ x))
  | .vDict d => dictToMarkdown d
  | .vNone => toL ("Not specified")
  | .vStr s => s

/-- The key `'generation_date'`. -/
def genKey : List Char := toL ("generation_date")

/-- The literal placeholder text `\x7b\x7bkey\x7d\x7d` substituted by `str.replace`. -/
def phOf (k : List Char) : List Char := toL ("\x7b\x7b") ++ k ++ toL ("\x7d\x7d")

/-- The `if 'generation_date' not in data: data['generation_date'] = ...` step of
`fill_template`, returning the (possibly mutated) mapping. -/
def withGenDate (gd : List Char) (data : List (List Char × Value)) :
    List (List Char × Value) :=
  if (data.map Prod.fst).contains genKey then data
  else data ++ [(genKey, Value.vStr gd)]

/-- The substitution loop of `fill_template`: for each `(key, value)` in
insertion order, replace every occurrence of the placeholder text with the
value's display string. -/
def substData (data : List (List Char × Value)) (template : List Char) : List Char :=
  data.foldl (fun acc kv => replaceAll (phOf kv.1) (displayValue kv.2) acc) template

/-- `fill_template(data)` on `template`, with the current timestamp supplied as
`gd`.  Returns the filled string and the post-call state of the caller's
mapping (the function mutates `data` when `'generation_date'` is absent). -/
def fill_template (gd : List Char) (data : List (List Char × Value))
    (template : List Char) : List Char × List (List Char × Value) :=
  (subAll (substData (withGenDate gd data) template), withGenDate gd data)

/-- An inline run of a paragraph: text plus bold/italic flags, as produced by
`add_run` and the flag assignments in `_add_formatted_paragraph`. -/
structure Run where
  text : List Char
  bold : Bool
  italic : Bool
deriving DecidableEq, Repr

/-- A table cell: `cell.text` plus whether its runs were set bold (done for the
header row in `_add_table_to_doc`). -/
structure Cell where
  text : List Char
  bold : Bool
deriving DecidableEq, Repr

/-- A block element appended to the output document.  `heading` is
`doc.add_heading(text, level)`; `styledPara` is `doc.add_paragraph(text)`
followed by `p.style = name` (the level ≥ 4 path of `_add_heading`); `para` is
a paragraph with its runs; `bullet` is a `'List Bullet'`-styled paragraph;
`table` is a table given as rows of cells. -/
inductive DocElem where
  | heading : Nat → List Char → DocElem
  | styledPara : List Char → List Char → DocElem
  | para : List Run → DocElem
  | bullet : List Char → DocElem
  | table : List (List Cell) → DocElem
deriving DecidableEq, Repr

/-- `_add_heading(doc, text, level)`. -/
def headingElem (level : Nat) (text : List Char) : DocElem :=
  if level ≤ 3 then DocElem.heading level text
  else DocElem.styledPara (toL ("Heading 3")) text

/-- `_add_list_to_doc(doc, items)`: one bulleted paragraph per buffered item. -/
def listFlush (items : List (List Char)) : List DocElem := items.map DocElem.bullet

/-- `"**"`. -/
def dstar : List Char := toL ("**")

/-- `findClose inner`: locate the earliest `**` in `inner` (the lazy closing of
`.*?` in `\*\*.*?\*\*`), returning the characters before it and the rest after
it; fails on a newline (`.` does not match `\n`) or end of input. -/
def findClose : List Char → Option (List Char × List Char)
  | '*' :: '*' :: r => some ([], r)
  | c :: r =>
    if c = nlChar then none
    else (findClose r).map (fun pr => (c :: pr.1, pr.2))
  | [] => none

/-- Try to match `\*\*.*?\*\*` at the head of the list, returning the matched
text and the rest. -/
def tryMatchBold (l : List Char) : Option (List Char × List Char) :=
  match l with
  | '*' :: '*' :: rest =>
    (findClose rest).map (fun pr => (dstar ++ pr.1 ++ dstar, pr.2))
  | _ => none

/-- Find the leftmost match of `\*\*.*?\*\*`: returns the text before the match,
the matched text, and the rest. -/
def splitFind : List Char → Option (List Char × List Char × List Char)
  | [] => none
  | c :: r =>
    match tryMatchBold (c :: r) with
    | some (m, rest) => some ([], m, rest)
    | none => (splitFind r).map (fun pr => (c :: pr.1, pr.2.1, pr.2.2))

/-- Fuel-driven model of `re.split(r'(\*\*.*?\*\*)', text)`: the captured
matches are kept between the unmatched segments, and empty segments at the
edges or between adjacent matches are kept as empty strings.  Each iteration
consumes the match (at least four characters), so fuel `text.length` is always
sufficient. -/
def reSplitF : Nat → List Char → List (List Char)
  | 0, l => [l]
  | n + 1, l =>
    match splitFind l with
    | none => [l]
    | some (p, m, rest) => p :: m :: reSplitF n rest

/-- `re.split(r'(\*\*.*?\*\*)', text)`. -/
def reSplitBold (l : List Char) : List (List Char) := reSplitF l.length l

/-- The run emitted for one part by `_add_formatted_paragraph`: a part wrapped
in `**` becomes a bold run with the markers stripped (`part[2:-2]`), a part
wrapped in `*` but not starting with `**` becomes an italic run
(`part[1:-1]`), anything else a plain run. -/
def segRun (p : List Char) : Run :=
  if dstar.isPrefixOf p ∧ dstar.isSuffixOf p then
    Run.mk ((p.drop 2).take (p.length - 4)) true false
  else if [star].isPrefixOf p ∧ [star].isSuffixOf p ∧ ¬ dstar.isPrefixOf p then
    Run.mk ((p.drop 1).take (p.length - 2)) false true
  else
    Run.mk p false false
where star : Char := '*'

/-- The runs of the paragraph built by `_add_formatted_paragraph(doc, text)`. -/
def formatRuns (text : List Char) : List Run := (reSplitBold text).map segRun

/-- The `cleaned_data` of `_add_table_to_doc`: drop rows containing `---`,
split the rest on `|`, drop the first and last segments, strip each cell. -/
def cleanTable (table_data : List (List Char)) : List (List (List Char)) :=
  (table_data.filter (fun row => !(containsSub (toL ("---")) row))).map
    (fun row => (((splitOnChar pipeChar row).drop 1).dropLast).map strip)

/-- Filling one table row: assigning `row.cells[j]` for each of the row's cells
raises `IndexError` (modelled as `none`) as soon as `j` reaches the column
count; otherwise the assigned cells are followed by the untouched (empty)
cells of the row.  `b` is true for the header row, whose runs are set bold. -/
def fillRow (cols : Nat) (b : Bool) (row : List (List Char)) : Option (List Cell) :=
  if row.length ≤ cols then
    some (row.map (fun t => Cell.mk t b) ++ List.replicate (cols - row.length) (Cell.mk [] false))
  else none

/-- Filling all rows of the table in order; the first row is the header. -/
def fillRows (cols : Nat) (b : Bool) : List (List (List Char)) → Option (List (List Cell))
  | [] => some []
  | r :: rs =>
    match fillRow cols b r, fillRows cols false rs with
    | some cr, some crs => some (cr :: crs)
    | _, _ => none

/-- `_add_table_to_doc(doc, table_data)`: returns `some []` when the cleaned
data is empty (early return, no table added), `some [table]` on success, and
`none` when filling raises `IndexError`.  The column count is the length of
the first cleaned row. -/
def addTableElems (table_data : List (List Char)) : Option (List DocElem) :=
  match cleanTable table_data with
  | [] => some []
  | r0 :: rs =>
    match fillRows r0.length true (r0 :: rs) with
    | none => none
    | some rows => some [DocElem.table rows]

/-- The `if table_data:` guard at a table close: an empty buffer adds nothing. -/
def tableFlush (table_data : List (List Char)) : Option (List DocElem) :=
  if table_data.isEmpty then some [] else addTableElems table_data

/-- The parser state of `markdown_to_docx`: the open list-item buffer
`current_list`, the `in_table` flag and the open table-row buffer
`table_data`. -/
structure PState where
  curList : List (List Char)
  inTable : Bool
  tableData : List (List Char)
deriving DecidableEq, Repr

/-- The initial parser state. -/
def startPS : PState := PState.mk [] false []

/-- `line.startswith(('- ', '* ', '+ '))`. -/
def listMarker (t : List Char) : Bool :=
  t.take 2 == toL ("- ") || t.take 2 == toL ("* ") || t.take 2 == toL ("+ ")

/-- `re.match(r'^\d+\.', line)`: one or more ASCII digits followed by a dot. -/
def numberedStart (t : List Char) : Bool :=
  !(t.takeWhile Char.isDigit).isEmpty &&
    (t.drop (t.takeWhile Char.isDigit).length).head? == some '.'

/-- `re.sub(r'^\d+\.\s*', '', line)`: strip the leading digits, the dot and the
following whitespace. -/
def stripNumber (t : List Char) : List Char :=
  (t.drop ((t.takeWhile Char.isDigit).length + 1)).dropWhile isSpace

/-- One iteration of the `for line in lines` loop of `markdown_to_docx`, on the
already stripped line `t`: returns the next state and the elements emitted, or
`none` when rendering a closing table raises.  The branches mirror the
`if`/`elif` chain of the source in order: blank, heading, table row, table
close, bullet item, numbered item, bold-inline paragraph, plain paragraph. -/
def stepT (s : PState) (t : List Char) : Option (PState × List DocElem) :=
  if t.isEmpty then
    some ({ s with curList := [] }, listFlush s.curList)
  else if t.head? = some hashChar then
    some ({ s with curList := [] },
      listFlush s.curList ++
        [headingElem (firstToken t).length (strip (t.dropWhile (fun c => c = hashChar)))])
  else if containsChar pipeChar t then
    if s.inTable then
      some ({ s with tableData := s.tableData ++ [t] }, [])
    else
      some ({ s with inTable := true, tableData := [t] }, [])
  else if s.inTable then
    match tableFlush s.tableData with
    | none => none
    | some es =>
      some ({ s with inTable := false, tableData := [] },
        es ++ [DocElem.para [Run.mk t false false]])
  else if listMarker t then
    some ({ s with curList := s.curList ++ [t.drop 2] }, [])
  else if numberedStart t then
    some ({ s with curList := s.curList ++ [stripNumber t] }, [])
  else if containsSub dstar t then
    some ({ s with curList := [] }, listFlush s.curList ++ [DocElem.para (formatRuns t)])
  else
    some ({ s with curList := [] },
      listFlush s.curList ++ [DocElem.para [Run.mk t false false]])

/-- One loop iteration on a raw line: `line = line.strip()` then `stepT`. -/
def step (s : PState) (line : List Char) : Option (PState × List DocElem) :=
  stepT s (strip line)

/-- The whole `for` loop: thread the state through the lines, concatenating the
emitted elements; an exception (`none`) aborts everything. -/
def runLines (s : PState) : List (List Char) → Option (PState × List DocElem)
  | [] => some (s, [])
  | l :: ls =>
    match step s l with
    | none => none
    | some (s1, es) =>
      match runLines s1 ls with
      | none => none
      | some (s2, es2) => some (s2, es ++ es2)

/-- `markdown_to_docx(markdown_content)`: split on newlines, run the loop, then
flush a remaining list buffer and a remaining table buffer in that order. -/
def markdown_to_docx (content : List Char) : Option (List DocElem) :=
  match runLines startPS (splitOnChar nlChar content) with
  | none => none
  | some (s, es) =>
    if s.inTable && !s.tableData.isEmpty then
      match addTableElems s.tableData with
      | none => none
      | some ts => some (es ++ listFlush s.curList ++ ts)
    else some (es ++ listFlush s.curList)

/-- The dropWhile part of the head-match condition for `\x7b\x7b\w+\x7d\x7d`: the
maximal word-character run is followed by two closing braces. -/
def dwOK (t : List Char) : Prop := ∃ r2, t.dropWhile isWordChar = rb :: rb :: r2

/-- The full condition under which `\x7b\x7b` followed by `t` matches the
placeholder regex at its head. -/
def tailOK (t : List Char) : Prop := t.takeWhile isWordChar ≠ [] ∧ dwOK t

theorem length_dropWhile_le' (p : Char → Bool) :
    ∀ l : List Char, (l.dropWhile p).length ≤ l.length := by
  intro l
  induction l with
  | nil => simp
  | cons c r ih =>
    by_cases h : p c
    · simp only [List.dropWhile_cons, if_pos h, List.length_cons]
      omega
    · simp [List.dropWhile_cons, h]

theorem matchPH_none_of_head (c : Char) (t : List Char) (h : ¬ c = lb) :
    matchPH (c :: t) = none := by
  cases t with
  | nil => rfl
  | cons d t2 => simp [matchPH, h]

theorem matchPH_some_lt (l r : List Char) (h : matchPH l = some r) :
    r.length < l.length := by
  match l with
  | [] => simp [matchPH] at h
  | [c] => simp [matchPH] at h
  | c1 :: c2 :: rest =>
    simp only [matchPH] at h
    by_cases hc : c1 = lb ∧ c2 = lb
    · rw [if_pos hc] at h
      cases hd : rest.dropWhile isWordChar with
      | nil => simp only [hd] at h; exact Option.noConfusion h
      | cons d1 t1 =>
        cases t1 with
        | nil => simp only [hd] at h; exact Option.noConfusion h
        | cons d2 r2 =>
          simp only [hd] at h
          by_cases h2 : d1 = rb ∧ d2 = rb ∧ rest.takeWhile isWordChar ≠ []
          · rw [if_pos h2] at h
            have hr : r2 = r := Option.some.inj h
            subst hr
            have hlen := length_dropWhile_le' isWordChar rest
            rw [hd] at hlen
            simp only [List.length_cons] at hlen ⊢
            omega
          · rw [if_neg h2] at h
            exact absurd h (by simp)
    · rw [if_neg hc] at h
      exact absurd h (by simp)

theorem matchPH_lblb (u : List Char) :
    (matchPH (lb :: lb :: u)).isSome = true ↔ tailOK u := by
  cases hd : u.dropWhile isWordChar with
  | nil =>
    have hm : matchPH (lb :: lb :: u) = none := by simp [matchPH, hd]
    rw [hm]
    simp only [Option.isSome_none, Bool.false_eq_true, false_iff, tailOK, dwOK]
    rintro ⟨_, x, hx⟩
    rw [hd] at hx
    exact List.noConfusion hx
  | cons d1 t1 =>
    cases t1 with
    | nil =>
      have hm : matchPH (lb :: lb :: u) = none := by simp [matchPH, hd]
      rw [hm]
      simp only [Option.isSome_none, Bool.false_eq_true, false_iff, tailOK, dwOK]
      rintro ⟨_, x, hx⟩
      rw [hd] at hx
      have := (List.cons.injEq _ _ _ _).mp hx
      exact List.noConfusion this.2
    | cons d2 r2 =>
      by_cases h2 : d1 = rb ∧ d2 = rb ∧ u.takeWhile isWordChar ≠ []
      · have hm : matchPH (lb :: lb :: u) = some r2 := by
          simp only [matchPH, and_self, if_true, hd]
          rw [if_pos h2]
        rw [hm]
        simp only [Option.isSome_some, true_iff]
        exact ⟨h2.2.2, r2, by rw [hd, h2.1, h2.2.1]⟩
      · have hm : matchPH (lb :: lb :: u) = none := by
          simp only [matchPH, and_self, if_true, hd]
          rw [if_neg h2]
        rw [hm]
        simp only [Option.isSome_none, Bool.false_eq_true, false_iff, tailOK, dwOK]
        rintro ⟨htw, x, hx⟩
        rw [hd] at hx
        have e1 := (List.cons.injEq _ _ _ _).mp hx
        have e2 := (List.cons.injEq _ _ _ _).mp e1.2
        exact absurd ⟨e1.1, e2.1, htw⟩ h2

theorem subAllF_head (n : Nat) (t : List Char) (c : Char)
    (h : (subAllF n t).head? = some c) (hc : ¬ c = '[') : t.head? = some c := by
  cases n with
  | zero => simp [subAllF] at h
  | succ n =>
    cases t with
    | nil => simp [subAllF] at h
    | cons d r =>
      cases hm : matchPH (d :: r) with
      | some m =>
        simp only [subAllF, hm] at h
        rw [show sentinel = '[' :: toL ("To be filled]") from rfl, List.cons_append] at h
        simp only [List.head?_cons, Option.some.injEq] at h
        exact absurd h.symm hc
      | none =>
        simp only [subAllF, hm] at h
        simpa using h

theorem dwOK_subAllF (n : Nat) : ∀ t : List Char, dwOK (subAllF n t) → dwOK t := by
  induction n with
  | zero =>
    intro t h
    obtain ⟨x, hx⟩ := h
    simp [subAllF] at hx
  | succ n ih =>
    intro t h
    cases t with
    | nil =>
      obtain ⟨x, hx⟩ := h
      simp [subAllF] at hx
    | cons c r =>
      cases hm : matchPH (c :: r) with
      | some m =>
        obtain ⟨x, hx⟩ := h
        simp only [subAllF, hm] at hx
        rw [show sentinel = '[' :: toL ("To be filled]") from rfl, List.cons_append,
          List.dropWhile_cons_of_neg (by decide)] at hx
        have h1 := ((List.cons.injEq _ _ _ _).mp hx).1
        exact absurd h1 (by decide)
      | none =>
        simp only [subAllF, hm] at h
        by_cases hw : isWordChar c
        · obtain ⟨x, hx⟩ := h
          rw [List.dropWhile_cons_of_pos hw] at hx
          obtain ⟨y, hy⟩ := ih r ⟨x, hx⟩
          exact ⟨y, by rw [List.dropWhile_cons_of_pos hw]; exact hy⟩
        · obtain ⟨x, hx⟩ := h
          rw [List.dropWhile_cons_of_neg hw] at hx
          have hpair := (List.cons.injEq _ _ _ _).mp hx
          have hceq : c = rb := hpair.1
          have hsub : subAllF n r = rb :: x := hpair.2
          have hhead : (subAllF n r).head? = some rb := by rw [hsub]; rfl
          have hr := subAllF_head n r rb hhead (by decide)
          cases r with
          | nil => simp at hr
          | cons e r2 =>
            have he : e = rb := by simpa using hr
            exact ⟨r2, by rw [List.dropWhile_cons_of_neg hw, hceq, he]⟩

theorem takeWhile_ne_subAllF (n : Nat) (t : List Char)
    (h : (subAllF n t).takeWhile isWordChar ≠ []) : t.takeWhile isWordChar ≠ [] := by
  cases hs : subAllF n t with
  | nil => rw [hs] at h; simp at h
  | cons c x =>
    rw [hs] at h
    by_cases hw : isWordChar c
    · have hhead : (subAllF n t).head? = some c := by rw [hs]; rfl
      have hc : ¬ c = '[' := by
        intro hcc; rw [hcc] at hw; exact absurd hw (by decide)
      have ht := subAllF_head n t c hhead hc
      cases t with
      | nil => simp at ht
      | cons d r =>
        have hd : d = c := by simpa using ht
        rw [List.takeWhile_cons_of_pos (by rw [hd]; exact hw)]
        simp
    · rw [List.takeWhile_cons_of_neg hw] at h
      simp at h

theorem matchPH_cons_subAllF (n : Nat) (c : Char) (t : List Char)
    (h : matchPH (c :: t) = none) : matchPH (c :: subAllF n t) = none := by
  by_cases hc : c = lb
  case neg => exact matchPH_none_of_head c _ hc
  subst hc
  cases n with
  | zero => simp only [subAllF]; rfl
  | succ n =>
    cases t with
    | nil => simp only [subAllF]; rfl
    | cons d r =>
      cases hm : matchPH (d :: r) with
      | some m =>
        simp only [subAllF, hm]
        rw [show sentinel = '[' :: toL ("To be filled]") from rfl, List.cons_append]
        simp only [matchPH]
        rw [if_neg (by decide)]
      | none =>
        simp only [subAllF, hm]
        by_cases hd : d = lb
        case neg =>
          simp only [matchPH]
          rw [if_neg (fun hh => hd hh.2)]
        case pos =>
          subst hd
          have hno : ¬ tailOK r := by
            intro htk
            have := (matchPH_lblb r).mpr htk
            rw [h] at this
            simp at this
          have hno2 : ¬ tailOK (subAllF n r) := by
            intro htk
            exact hno ⟨takeWhile_ne_subAllF n r htk.1, dwOK_subAllF n r htk.2⟩
          cases hmm : matchPH (lb :: lb :: subAllF n r) with
          | none => rfl
          | some z =>
            exact absurd ((matchPH_lblb _).mp (by rw [hmm]; rfl)) hno2

theorem hasPH_append_safe (a t : List Char) (ha : ∀ c ∈ a, ¬ c = lb) :
    hasPH (a ++ t) = hasPH t := by
  induction a with
  | nil => rfl
  | cons c a2 ih =>
    have h1 : matchPH (c :: (a2 ++ t)) = none :=
      matchPH_none_of_head c _ (ha c (by simp))
    show hasPH (c :: (a2 ++ t)) = hasPH t
    simp only [hasPH, h1, Option.isSome_none, Bool.false_or]
    exact ih (fun d hd => ha d (by simp [hd]))

theorem sentinel_no_lb : ∀ c ∈ sentinel, ¬ c = lb := by decide

theorem hasPH_subAllF (n : Nat) : ∀ l : List Char, l.length ≤ n →
    hasPH (subAllF n l) = false := by
  induction n with
  | zero => intro l _; rfl
  | succ n ih =>
    intro l hl
    cases l with
    | nil => rfl
    | cons c rest =>
      cases hm : matchPH (c :: rest) with
      | some r =>
        simp only [subAllF, hm]
        rw [hasPH_append_safe sentinel _ sentinel_no_lb]
        apply ih
        have := matchPH_some_lt (c :: rest) r hm
        simp only [List.length_cons] at this hl
        omega
      | none =>
        simp only [subAllF, hm]
        show hasPH (c :: subAllF n rest) = false
        simp only [hasPH, matchPH_cons_subAllF n c rest hm, Option.isSome_none,
          Bool.false_or]
        apply ih
        simp only [List.length_cons] at hl
        omega

theorem subAllF_no_match (n : Nat) : ∀ l : List Char, l.length ≤ n →
    hasPH l = false → subAllF n l = l := by
  induction n with
  | zero =>
    intro l hl _
    have : l = [] := List.length_eq_zero.mp (Nat.le_zero.mp hl)
    rw [this]; rfl
  | succ n ih =>
    intro l hl h
    cases l with
    | nil => rfl
    | cons c rest =>
      simp only [hasPH, Bool.or_eq_false_iff] at h
      cases hm : matchPH (c :: rest) with
      | some r => rw [hm] at h; simp at h
      | none =>
        simp only [subAllF, hm]
        rw [ih rest (by simp only [List.length_cons] at hl; omega) h.2]

theorem replaceAllF_not_contains (pat rep : List Char) (n : Nat) :
    ∀ l : List Char, containsSub pat l = false → replaceAllF pat rep n l = l := by
  induction n with
  | zero => intro l _; rfl
  | succ n ih =>
    intro l h
    cases l with
    | nil => rfl
    | cons c rest =>
      simp only [containsSub, Bool.or_eq_false_iff] at h
      simp only [replaceAllF]
      rw [if_neg (by simp [h.1]), ih rest h.2]

theorem replaceAll_not_contains (pat rep l : List Char)
    (h : containsSub pat l = false) : replaceAll pat rep l = l :=
  replaceAllF_not_contains pat rep l.length l h

theorem fillRows_isSome_iff (cols : Nat) : ∀ (b : Bool) (rows : List (List (List Char))),
    (fillRows cols b rows).isSome = true ↔ ∀ row ∈ rows, row.length ≤ cols := by
  intro b rows
  induction rows generalizing b with
  | nil => simp [fillRows]
  | cons r rs ih =>
    by_cases hr : r.length ≤ cols
    · have hf : fillRow cols b r = some (r.map (fun t => Cell.mk t b) ++
          List.replicate (cols - r.length) (Cell.mk [] false)) := by
        simp [fillRow, hr]
      cases hrs : fillRows cols false rs with
      | none =>
        simp only [fillRows, hf, hrs]
        constructor
        · intro hfalse; simp at hfalse
        · intro hall
          have h2 := (ih false).mpr (fun row hm => hall row (List.mem_cons_of_mem _ hm))
          rw [hrs] at h2
          simp at h2
      | some crs =>
        simp only [fillRows, hf, hrs, Option.isSome_some, true_iff]
        intro row hm
        rcases List.mem_cons.mp hm with h | h
        · rw [h]; exact hr
        · exact (ih false).mp (by rw [hrs]; rfl) row h
    · have hf : fillRow cols b r = none := by simp [fillRow, hr]
      simp only [fillRows, hf]
      constructor
      · intro hfalse; simp at hfalse
      · intro hall; exact absurd (hall r (List.mem_cons_self _ _)) hr

theorem splitOnChar_no_sep (sep : Char) : ∀ l : List Char,
    containsChar sep l = false → splitOnChar sep l = [l] := by
  intro l
  induction l with
  | nil => intro _; rfl
  | cons c r ih =>
    intro h
    simp only [containsChar, List.any_cons, Bool.or_eq_false_iff] at h
    have hcr : splitOnChar sep r = [r] := ih h.2
    simp only [splitOnChar, hcr]
    rw [if_neg (by simpa using h.1)]

/-- C1 (confirmed): for every template and every data mapping (the timestamp
`gd` is arbitrary, so this covers the empty mapping too), the string returned
by `fill_template` contains no substring matching the placeholder regex
`\x7b\x7b[A-Za-z0-9_]+\x7d\x7d`: the final `re.sub` pass replaces every remaining
placeholder with the fixed sentinel `"[To be filled]"`, and since the sentinel
contains no brace and neither starts nor ends with a word character, the
replacement can never create a new match. -/
theorem c1_placeholder_completeness (gd : List Char) (data : List (List Char × Value))
    (template : List Char) : hasPH (fill_template gd data template).1 = false := by
  simp only [fill_template, subAll]
  exact hasPH_subAllF _ _ le_rfl

/-- C7 (confirmed): for the buffered rows `| H1 | H2 |`, `| --- | --- |`,
`| a | b |`, the separator row is discarded, the remaining rows are split on
`|` with the outer empty segments dropped and the cells trimmed, and the
rendered table has exactly two rows and two columns, the header cells bold
with texts `H1`, `H2`, the data row plain with texts `a`, `b`. -/
theorem c7_table_extraction :
    addTableElems [toL ("| H1 | H2 |"), toL ("| --- | --- |"), toL ("| a | b |")] =
      some [DocElem.table
        [[Cell.mk (toL ("H1")) true, Cell.mk (toL ("H2")) true],
         [Cell.mk (toL ("a")) false, Cell.mk (toL ("b")) false]]] := by
  decide

/-- C5 counterexample: a buffered table whose second row has FEWER cells than
the header-derived column count renders without any failure — the missing
cells are simply left empty — contradicting the claim that a row with fewer
cells raises an out-of-bounds failure. -/
theorem c5_counterexample :
    addTableElems [toL ("| a | b |"), toL ("| c |")] =
      some [DocElem.table
        [[Cell.mk (toL ("a")) true, Cell.mk (toL ("b")) true],
         [Cell.mk (toL ("c")) false, Cell.mk [] false]]] := by
  decide

/-- C5 (corrected): rendering a buffered table fails with an out-of-bounds
error exactly when some row has MORE cells than the column count derived from
the first cleaned row; when every row has at most that many cells, rendering
succeeds (rows with fewer cells leave their trailing cells empty). -/
theorem c5_row_length_behavior (td : List (List Char)) (r0 : List (List Char))
    (rs : List (List (List Char))) (hc : cleanTable td = r0 :: rs) :
    ((∀ row ∈ r0 :: rs, row.length ≤ r0.length) → (addTableElems td).isSome = true) ∧
    ((∃ row ∈ r0 :: rs, r0.length < row.length) → addTableElems td = none) := by
  constructor
  · intro hall
    have hs := (fillRows_isSome_iff r0.length true (r0 :: rs)).mpr hall
    cases hf : fillRows r0.length true (r0 :: rs) with
    | none => rw [hf] at hs; simp at hs
    | some rows => simp only [addTableElems, hc, hf, Option.isSome_some]
  · rintro ⟨row, hm, hlen⟩
    have hs : ¬ (fillRows r0.length true (r0 :: rs)).isSome = true := by
      intro hsome
      exact absurd ((fillRows_isSome_iff r0.length true (r0 :: rs)).mp hsome row hm)
        (by omega)
    cases hf : fillRows r0.length true (r0 :: rs) with
    | some rows => rw [hf] at hs; simp at hs
    | none => simp only [addTableElems, hc, hf]

/-- C5 witness: on the concrete buffer whose second row has three cells against
a one-column header, rendering fails. -/
theorem c5_witness :
    addTableElems [toL ("| a |"), toL ("| b | c |")] = none :=
  (c5_row_length_behavior [toL ("| a |"), toL ("| b | c |")] [toL ("a")]
    [[toL ("b"), toL ("c")]] (by decide)).2 (by decide)

/-- C4 counterexample: `_add_formatted_paragraph` applied to
`"**bold** and *italic* and plain"` does not produce the claimed run list
(bold `bold`, plain `" and "`, italic `italic`, plain `" and plain"`),
because `re.split(r'(\*\*.*?\*\*)', text)` only splits at `**`-delimited
spans, so the single-asterisk span stays inside one plain segment. -/
theorem c4_counterexample :
    formatRuns (toL ("**bold** and *italic* and plain")) ≠
      [Run.mk (toL ("bold")) true false, Run.mk (toL (" and ")) false false,
       Run.mk (toL ("italic")) false true, Run.mk (toL (" and plain")) false false] := by
  decide

/-- C4 (corrected): the line is split only at `**`-delimited spans (with empty
edge segments kept), each `**`-wrapped segment becomes a bold run with the
markers stripped and every other segment of this line becomes a plain run, so
`"**bold** and *italic* and plain"` yields an empty plain run, a bold run
`"bold"`, and a plain run `" and *italic* and plain"` in order. -/
theorem c4_actual_runs :
    formatRuns (toL ("**bold** and *italic* and plain")) =
      [Run.mk [] false false, Run.mk (toL ("bold")) true false,
       Run.mk (toL (" and *italic* and plain")) false false] := by
  decide

/-- C6 counterexample: binding `{"A": {"B": "1"}}` to placeholder `y` in a
template consisting only of that placeholder does NOT produce the claimed
text `"- **A:**\n- **B:** 1"`: the nested mapping is rendered at depth 1 and
therefore indented by two spaces. -/
theorem c6_counterexample :
    (fill_template (toL ("2025-01-01 00:00"))
        [(toL ("y"), Value.vDict (Entries.cons (toL ("A"))
          (Value.vDict (Entries.cons (toL ("B")) (Value.vStr (toL ("1"))) Entries.nil))
          Entries.nil))]
        (phOf (toL ("y")))).1 ≠ toL ("- **A:**\n- **B:** 1") := by
  decide

/-- C6 (corrected): binding `{"A": {"B": "1"}}` to placeholder `y` in a
template consisting only of that placeholder fills to
`"- **A:**\n  - **B:** 1"`: the mapping-to-block renderer emits the bullet
header line and then recurses one level deeper with an indent of two spaces
per depth level, so the inner bullet is indented by two spaces. -/
theorem c6_nested_mapping (gd : List Char) :
    (fill_template gd
        [(toL ("y"), Value.vDict (Entries.cons (toL ("A"))
          (Value.vDict (Entries.cons (toL ("B")) (Value.vStr (toL ("1"))) Entries.nil))
          Entries.nil))]
        (phOf (toL ("y")))).1 = toL ("- **A:**\n  - **B:** 1") := by
  simp only [fill_template, withGenDate]
  rw [if_neg (by decide)]
  simp only [substData, List.cons_append, List.nil_append, List.foldl_cons, List.foldl_nil]
  rw [show (replaceAll (phOf (toL ("y")))
      (displayValue (Value.vDict (Entries.cons (toL ("A"))
        (Value.vDict (Entries.cons (toL ("B")) (Value.vStr (toL ("1"))) Entries.nil))
        Entries.nil)))
      (phOf (toL ("y")))) = toL ("- **A:**\n  - **B:** 1") from by decide]
  rw [show displayValue (Value.vStr gd) = gd from rfl]
  rw [replaceAll_not_contains _ _ _ (by decide)]
  exact subAllF_no_match _ _ le_rfl (by decide)

/-- C9 (confirmed): `fill_template` mutates its caller's mapping exactly when
the key `'generation_date'` is absent, appending that key bound to the
formatted current timestamp while leaving every existing entry unchanged;
when the key is present the mapping is left untouched. -/
theorem c9_generation_date_mutation (gd : List Char) (data : List (List Char × Value))
    (template : List Char) :
    ((data.map Prod.fst).contains genKey = false →
      (fill_template gd data template).2 = data ++ [(genKey, Value.vStr gd)]) ∧
    ((data.map Prod.fst).contains genKey = true →
      (fill_template gd data template).2 = data) := by
  constructor
  · intro h
    show withGenDate gd data = data ++ [(genKey, Value.vStr gd)]
    unfold withGenDate
    rw [if_neg (by rw [h]; exact Bool.false_ne_true)]
  · intro h
    show withGenDate gd data = data
    unfold withGenDate
    rw [if_pos h]

/-- C9 witness: a mapping with a single other key gains exactly the
`generation_date` entry at the end. -/
theorem c9_witness :
    (fill_template (toL ("2025-01-01 00:00"))
        [(toL ("project_name"), Value.vStr (toL ("X")))] (toL (""))).2 =
      [(toL ("project_name"), Value.vStr (toL ("X")))] ++
        [(genKey, Value.vStr (toL ("2025-01-01 00:00")))] :=
  (c9_generation_date_mutation (toL ("2025-01-01 00:00"))
    [(toL ("project_name"), Value.vStr (toL ("X")))] (toL (""))).1 (by decide)

/-- C10 (confirmed): the sentinel pass only rewrites tokens matching
`\x7b\x7b[word]+\x7d\x7d`, so when a template contains no such well-formed
placeholder (and no occurrence of the literal `\x7b\x7bgeneration_date\x7d\x7d`
text, which the synthesized timestamp entry would substitute),
`fill_template` on the empty mapping returns the template unchanged; in
particular malformed double-brace tokens such as `\x7b\x7ba-b\x7d\x7d` or
`\x7b\x7btwo words\x7d\x7d` survive verbatim in the output. -/
theorem c10_malformed_tokens_survive (gd t : List Char) (h1 : hasPH t = false)
    (h2 : containsSub (phOf genKey) t = false) :
    (fill_template gd [] t).1 = t := by
  simp only [fill_template, withGenDate]
  rw [if_neg (by decide)]
  simp only [substData, List.nil_append, List.foldl_cons, List.foldl_nil]
  rw [show displayValue (Value.vStr gd) = gd from rfl]
  rw [replaceAll_not_contains _ _ _ h2]
  exact subAllF_no_match _ _ le_rfl h1

/-- C10 witness: a template containing the malformed tokens `\x7b\x7ba-b\x7d\x7d`
and `\x7b\x7btwo words\x7d\x7d` passes through `fill_template` unchanged, and the
returned string still contains the `\x7b\x7ba-b\x7d\x7d` text. -/
theorem c10_witness :
    containsSub (toL ("\x7b\x7ba-b\x7d\x7d"))
      ((fill_template (toL ("2025-01-01 00:00")) []
        (toL ("x \x7b\x7ba-b\x7d\x7d y \x7b\x7btwo words\x7d\x7d z"))).1) = true := by
  rw [c10_malformed_tokens_survive _ _ (by decide) (by decide)]
  decide

theorem stepT_blank (s : PState) :
    stepT s [] = some ({ s with curList := [] }, listFlush s.curList) := rfl

theorem stepT_heading (s : PState) (t : List Char) (h : t.head? = some hashChar) :
    stepT s t = some ({ s with curList := [] },
      listFlush s.curList ++ [headingElem (firstToken t).length
        (strip (t.dropWhile (fun c => c = hashChar)))]) := by
  have hne : t.isEmpty = false := by
    cases t with
    | nil => simp at h
    | cons a b => rfl
  unfold stepT
  rw [if_neg (by rw [hne]; exact Bool.false_ne_true), if_pos h]

theorem stepT_pipe (s : PState) (t : List Char) (hne : t.isEmpty = false)
    (hh : t.head? ≠ some hashChar) (hp : containsChar pipeChar t = true) :
    stepT s t = if s.inTable then some ({ s with tableData := s.tableData ++ [t] }, [])
      else some ({ s with inTable := true, tableData := [t] }, []) := by
  unfold stepT
  rw [if_neg (by rw [hne]; exact Bool.false_ne_true), if_neg hh, if_pos hp]

theorem stepT_close (s : PState) (t : List Char) (hne : t.isEmpty = false)
    (hh : t.head? ≠ some hashChar) (hp : containsChar pipeChar t = false)
    (hit : s.inTable = true) :
    stepT s t = match tableFlush s.tableData with
      | none => none
      | some es => some ({ s with inTable := false, tableData := [] },
          es ++ [DocElem.para [Run.mk t false false]]) := by
  unfold stepT
  rw [if_neg (by rw [hne]; exact Bool.false_ne_true), if_neg hh,
    if_neg (by rw [hp]; exact Bool.false_ne_true), if_pos hit]

/-- C2 counterexample: the heading level assigned by the parser is the length
of the first whitespace-delimited token, not the count of leading `#`
characters: the line `"#x"` has one leading `#` but is emitted as a LEVEL-2
heading with text `"x"`. -/
theorem c2_counterexample :
    markdown_to_docx (toL ("#x")) = some [DocElem.heading 2 (toL ("x"))] ∧
    ((toL ("#x")).takeWhile (fun c => c = hashChar)).length = 1 := by
  refine ⟨by decide, by decide⟩

/-- C2 (corrected): for every single-line input whose stripped form begins with
`#`, the parser emits exactly one element: heading text is the line with
leading `#` characters and surrounding whitespace stripped, and heading level
is the LENGTH OF THE FIRST WHITESPACE-DELIMITED TOKEN of the line (which
equals the count of leading `#` characters exactly when the `#` run is
followed by whitespace or end of line); levels 1-3 are native headings of
that level and any level ≥ 4 is a paragraph styled as a level-3 heading. -/
theorem c2_heading_line (l : List Char) (h1 : (strip l).head? = some hashChar)
    (h2 : containsChar nlChar l = false) :
    markdown_to_docx l = some [headingElem (firstToken (strip l)).length
      (strip ((strip l).dropWhile (fun c => c = hashChar)))] := by
  have hsplit := splitOnChar_no_sep nlChar l h2
  have hstep : step startPS l = some ({ startPS with curList := [] },
      listFlush startPS.curList ++ [headingElem (firstToken (strip l)).length
        (strip ((strip l).dropWhile (fun c => c = hashChar)))]) :=
    stepT_heading startPS (strip l) h1
  unfold markdown_to_docx
  rw [hsplit]
  simp only [runLines, hstep]
  simp [listFlush, startPS]

/-- C2 witness: `"### Title"` parses to a native level-3 heading with text
`"Title"`, and `"##### Deep"` parses to a level-3-styled paragraph with text
`"Deep"`. -/
theorem c2_witness :
    markdown_to_docx (toL ("### Title")) = some [DocElem.heading 3 (toL ("Title"))] ∧
    markdown_to_docx (toL ("##### Deep")) =
      some [DocElem.styledPara (toL ("Heading 3")) (toL ("Deep"))] := by
  constructor
  · exact (c2_heading_line (toL ("### Title")) (by decide) (by decide)).trans (by decide)
  · exact (c2_heading_line (toL ("##### Deep")) (by decide) (by decide)).trans (by decide)

/-- C3 counterexample: after the two lines `"- a"` and `"| x |"` the list
buffer still holds `"a"` while a table group is open, so two block groups are
open at the same time — a table-row line does not flush an open list buffer. -/
theorem c3_counterexample :
    runLines startPS [toL ("- a"), toL ("| x |")] =
      some (PState.mk [toL ("a")] true [toL ("| x |")], []) ∧
    (PState.mk [toL ("a")] true [toL ("| x |")]).curList ≠ [] ∧
    (PState.mk [toL ("a")] true [toL ("| x |")]).inTable = true := by
  refine ⟨by decide, by decide, rfl⟩

/-- C3 (corrected): at most one list group and at most one table group are
open at a time, but one of EACH kind may be open simultaneously.  Per parsing
step: a blank line flushes the open list buffer and leaves the table state
untouched; a heading line flushes the open list buffer and leaves the table
state untouched; a table-row line leaves the open list buffer untouched (this
is where the original invariant fails) and leaves a table open; a non-blank,
non-heading line without `|` while a table is open flushes and clears the
table group but leaves the list buffer untouched. -/
theorem c3_block_group_discipline (s : PState) (line : List Char) (s' : PState)
    (es : List DocElem) (h : step s line = some (s', es)) :
    (strip line = [] →
      s'.curList = [] ∧ s'.inTable = s.inTable ∧ s'.tableData = s.tableData) ∧
    ((strip line).head? = some hashChar →
      s'.curList = [] ∧ s'.inTable = s.inTable ∧ s'.tableData = s.tableData) ∧
    (containsChar pipeChar (strip line) = true → (strip line).head? ≠ some hashChar →
      s'.curList = s.curList ∧ s'.inTable = true) ∧
    (strip line ≠ [] → (strip line).head? ≠ some hashChar →
      containsChar pipeChar (strip line) = false → s.inTable = true →
      s'.inTable = false ∧ s'.tableData = [] ∧ s'.curList = s.curList) := by
  unfold step at h
  refine ⟨?_, ?_, ?_, ?_⟩
  · intro ht
    rw [ht, stepT_blank] at h
    simp only [Option.some.injEq, Prod.mk.injEq] at h
    rw [← h.1]
    exact ⟨rfl, rfl, rfl⟩
  · intro hh
    rw [stepT_heading s (strip line) hh] at h
    simp only [Option.some.injEq, Prod.mk.injEq] at h
    rw [← h.1]
    exact ⟨rfl, rfl, rfl⟩
  · intro hp hh
    have hne : (strip line).isEmpty = false := by
      cases hsl : strip line with
      | nil => rw [hsl] at hp; simp [containsChar] at hp
      | cons a b => rfl
    rw [stepT_pipe s (strip line) hne hh hp] at h
    by_cases hit : s.inTable = true
    · rw [if_pos hit] at h
      simp only [Option.some.injEq, Prod.mk.injEq] at h
      rw [← h.1]
      exact ⟨rfl, hit⟩
    · rw [if_neg hit] at h
      simp only [Option.some.injEq, Prod.mk.injEq] at h
      rw [← h.1]
      exact ⟨rfl, rfl⟩
  · intro hne hh hp hit
    have hne' : (strip line).isEmpty = false := by
      cases hsl : strip line with
      | nil => exact absurd hsl hne
      | cons a b => rfl
    rw [stepT_close s (strip line) hne' hh hp hit] at h
    cases hm : tableFlush s.tableData with
    | none =>
      simp only [hm] at h
      exact Option.noConfusion h
    | some es2 =>
      simp only [hm] at h
      simp only [Option.some.injEq, Prod.mk.injEq] at h
      rw [← h.1]
      exact ⟨rfl, rfl, rfl⟩

/-- C3 witness: a table-row line arriving while the list buffer holds `"a"`
leaves the list buffer untouched and opens the table. -/
theorem c3_witness :
    (PState.mk [toL ("a")] true [toL ("| x |")]).curList =
      (PState.mk [toL ("a")] false []).curList ∧
    (PState.mk [toL ("a")] true [toL ("| x |")]).inTable = true :=
  (c3_block_group_discipline (PState.mk [toL ("a")] false []) (toL ("| x |"))
    (PState.mk [toL ("a")] true [toL ("| x |")]) [] (by decide)).2.2.1
    (by decide) (by decide)

/-- C8 (confirmed): a blank line flushes the open list buffer but leaves the
table flag and the table buffer untouched; and whenever a parsing step turns
the table flag off, the (stripped) line was non-blank and contained no `|`,
so an open table is closed only by such a line or by end of input. -/
theorem c8_blank_line_handling (s : PState) (line : List Char) (s' : PState)
    (es : List DocElem) (h : step s line = some (s', es)) :
    (strip line = [] →
      s'.curList = [] ∧ s'.inTable = s.inTable ∧ s'.tableData = s.tableData) ∧
    (s.inTable = true → s'.inTable = false →
      strip line ≠ [] ∧ containsChar pipeChar (strip line) = false) := by
  unfold step at h
  refine ⟨?_, ?_⟩
  · intro ht
    rw [ht, stepT_blank] at h
    simp only [Option.some.injEq, Prod.mk.injEq] at h
    rw [← h.1]
    exact ⟨rfl, rfl, rfl⟩
  · intro hit hclosed
    cases hsl : strip line with
    | nil =>
      rw [hsl, stepT_blank] at h
      simp only [Option.some.injEq, Prod.mk.injEq] at h
      rw [← h.1] at hclosed
      exact absurd (show s.inTable = false from hclosed) (by rw [hit]; simp)
    | cons a b =>
      by_cases hh : (a :: b).head? = some hashChar
      · rw [hsl, stepT_heading s (a :: b) hh] at h
        simp only [Option.some.injEq, Prod.mk.injEq] at h
        rw [← h.1] at hclosed
        exact absurd (show s.inTable = false from hclosed) (by rw [hit]; simp)
      · by_cases hp : containsChar pipeChar (a :: b) = true
        · rw [hsl, stepT_pipe s (a :: b) rfl hh hp, if_pos hit] at h
          simp only [Option.some.injEq, Prod.mk.injEq] at h
          rw [← h.1] at hclosed
          exact absurd (show s.inTable = false from hclosed) (by rw [hit]; simp)
        · exact ⟨fun hc => List.noConfusion hc, Bool.eq_false_iff.mpr hp⟩

/-- C8 witness: a blank line arriving with the list buffer holding `"a"` and a
table open flushes the list buffer and leaves the table flag and table buffer
unchanged. -/
theorem c8_witness :
    (PState.mk [] true [toL ("| x |")]).curList = [] ∧
    (PState.mk [] true [toL ("| x |")]).inTable =
      (PState.mk [toL ("a")] true [toL ("| x |")]).inTable ∧
    (PState.mk [] true [toL ("| x |")]).tableData =
      (PState.mk [toL ("a")] true [toL ("| x |")]).tableData :=
  (c8_blank_line_handling (PState.mk [toL ("a")] true [toL ("| x |")]) []
    (PState.mk [] true [toL ("| x |")]) [DocElem.bullet (toL ("a"))] (by decide)).1 rfl
